import Mathlib

/-!
Verification of the DiffScope test-fixture repository against its
natural-language specification.

The repository consists of Python fixture files; the sample functions cited
by the claims are embedded below as Lean definitions (Python ints become
`Int`, Python numerics in `divide` become exact rationals, exceptions become
`Except`).  The spec's "Change Classifier" core is external to the
repository, so its data model (Declaration / Match / ChangeRecord), the
Declaration Matcher and the Change Classifier are modelled from the spec's
component contracts (sections 3, 4.2, 4.3, 8 of spec.md).
-/

namespace DiffScope

/-! ## Embedded sample functions (from src/python) -/

/-- Embedded from `src/python/util_functions.py`, `calculate_factorial`:
`if n <= 1: return 1` then `return n * calculate_factorial(n - 1)`. -/
def calculate_factorial (n : Int) : Int :=
  if n ≤ 1 then 1
  else n * calculate_factorial (n - 1)
termination_by n.toNat
decreasing_by
  simp only [not_le] at *
  omega

/-- Fuel-instrumented version of `calculate_factorial`: `none` means the
recursion did not reach its base case within the given number of calls.
Used to state termination of the Python recursion. -/
def calculate_factorial_fuel : Nat → Int → Option Int
  | 0, _ => none
  | fuel + 1, n =>
    if n ≤ 1 then some 1
    else (calculate_factorial_fuel fuel (n - 1)).map (fun r => n * r)

/-- Lookup in the memoization cache, modelling `key in cache` / `cache[key]`
on the decorator's dict (keys here are the single positional argument). -/
def cacheLookup : List (Int × Int) → Int → Option Int
  | [], _ => none
  | (k, v) :: rest, n => if k = n then some v else cacheLookup rest n

/-- Embedded from `src/python/language_features.py`: the `memoize` decorator
applied to `factorial`.  The decorator's `cache` dict is threaded explicitly
as an association list keyed by the argument; the wrapper looks the key up,
computes and stores on a miss exactly as `wrapper` does (inner recursive
call first, then the store of the outer key, matching Python's evaluation
order). -/
def factorialMemo (n : Int) (cache : List (Int × Int)) : Int × List (Int × Int) :=
  match cacheLookup cache n with
  | some v => (v, cache)
  | none =>
    if n ≤ 1 then (1, (n, 1) :: cache)
    else
      let p := factorialMemo (n - 1) cache
      (n * p.1, (n, n * p.1) :: p.2)
termination_by n.toNat
decreasing_by
  simp only [not_le] at *
  omega

/-- Embedded from `src/python/basic_functions.py`, `divide`:
`if b == 0: raise ZeroDivisionError("Cannot divide by zero")` else `a / b`.
Python numbers are modelled as exact rationals and the raised exception as
the `Except.error` carrying the exception message. -/
def divide (a b : ℚ) : Except String ℚ :=
  if b = 0 then Except.error "Cannot divide by zero"
  else Except.ok (a / b)

/-- The `while i * i <= num` loop of `is_prime` in
`src/python/util_functions.py`, stepping `i += 6` and testing divisibility
by `i` and `i + 2`.  The loop runs over `Nat` because `is_prime` only enters
it for `num ≥ 4`. -/
def primeLoop (num : Nat) (i : Nat) : Bool :=
  if i * i ≤ num then
    if num % i = 0 ∨ num % (i + 2) = 0 then false
    else primeLoop num (i + 6)
  else true
termination_by num + 1 - i * i
decreasing_by
  have h36 : (i + 6) * (i + 6) = i * i + 12 * i + 36 := by ring
  omega

/-- Embedded from `src/python/util_functions.py`, `is_prime`. -/
def is_prime (num : Int) : Bool :=
  if num ≤ 1 then false
  else if num ≤ 3 then true
  else if num % 2 = 0 ∨ num % 3 = 0 then false
  else primeLoop num.toNat 5

/-! ## Lemmas about the factorial samples -/

theorem calculate_factorial_base {n : Int} (h : n ≤ 1) : calculate_factorial n = 1 := by
  rw [calculate_factorial]
  simp [h]

theorem calculate_factorial_step {n : Int} (h : ¬ n ≤ 1) :
    calculate_factorial n = n * calculate_factorial (n - 1) := by
  rw [calculate_factorial]
  simp [h]

theorem calculate_factorial_natCast (n : Nat) :
    calculate_factorial (n : Int) = Nat.factorial n := by
  induction n with
  | zero => rw [calculate_factorial_base (by norm_num)]; rfl
  | succ k ih =>
    by_cases hk : k = 0
    · subst hk
      rw [calculate_factorial_base (by norm_num)]
      rfl
    · have h1 : ¬ ((k : Int) + 1 ≤ 1) := by omega
      have : ((k + 1 : Nat) : Int) = (k : Int) + 1 := by push_cast; ring
      rw [this, calculate_factorial_step h1]
      have h2 : (k : Int) + 1 - 1 = (k : Int) := by ring
      rw [h2, ih, Nat.factorial_succ]
      push_cast
      ring

/-- A memo cache is valid when every stored value is the plain factorial of
its key. -/
def cacheValid (cache : List (Int × Int)) : Prop :=
  ∀ kv ∈ cache, kv.2 = calculate_factorial kv.1

theorem cacheLookup_valid {cache : List (Int × Int)} (hc : cacheValid cache)
    {n v : Int} (h : cacheLookup cache n = some v) : v = calculate_factorial n := by
  induction cache with
  | nil => simp [cacheLookup] at h
  | cons kv rest ih =>
    obtain ⟨k, w⟩ := kv
    by_cases hk : k = n
    · subst hk
      obtain rfl : w = v := by simpa [cacheLookup] using h
      exact hc (k, w) (by simp)
    · simp only [cacheLookup, if_neg hk] at h
      exact ih (fun kv hkv => hc kv (List.mem_cons_of_mem _ hkv)) h

theorem factorialMemo_correct_aux :
    ∀ (k : Nat) (n : Int), n.toNat = k → ∀ cache : List (Int × Int), cacheValid cache →
      (factorialMemo n cache).1 = calculate_factorial n ∧
        cacheValid (factorialMemo n cache).2 := by
  intro k
  induction k using Nat.strong_induction_on with
  | _ k ih =>
    intro n hk cache hc
    rw [factorialMemo]
    cases hlook : cacheLookup cache n with
    | some v =>
      simp only []
      exact ⟨cacheLookup_valid hc hlook, hc⟩
    | none =>
      simp only []
      by_cases hn : n ≤ 1
      · simp only [if_pos hn]
        refine ⟨(calculate_factorial_base hn).symm, ?_⟩
        intro kv hkv
        rcases List.mem_cons.mp hkv with h | h
        · subst h; exact (calculate_factorial_base hn).symm
        · exact hc kv h
      · simp only [if_neg hn]
        obtain ⟨h1, h2⟩ := ih (n - 1).toNat (by omega) (n - 1) rfl cache hc
        constructor
        · rw [h1, calculate_factorial_step hn]
        · intro kv hkv
          rcases List.mem_cons.mp hkv with h | h
          · subst h
            rw [h1, calculate_factorial_step hn]
          · exact h2 kv h

/-! ## Claim theorems: factorial, divide, termination -/

/-- C7: `calculate_factorial` (util_functions.py) and the memoized
`factorial` (language_features.py) both compute `n!` on naturals, both
return 1 for every integer `n ≤ 1`, and the two functions agree on every
integer input. -/
theorem c7_factorial_functions_correct :
    (∀ n : Nat, calculate_factorial (n : Int) = Nat.factorial n) ∧
    (∀ n : Nat, (factorialMemo (n : Int) []).1 = Nat.factorial n) ∧
    (∀ n : Int, n ≤ 1 → calculate_factorial n = 1 ∧ (factorialMemo n []).1 = 1) ∧
    (∀ n : Int, (factorialMemo n []).1 = calculate_factorial n) := by
  have hmemo : ∀ n : Int, (factorialMemo n []).1 = calculate_factorial n := by
    intro n
    exact (factorialMemo_correct_aux n.toNat n rfl [] (by intro kv hkv; simp at hkv)).1
  refine ⟨calculate_factorial_natCast, ?_, ?_, hmemo⟩
  · intro n
    rw [hmemo, calculate_factorial_natCast]
  · intro n hn
    exact ⟨calculate_factorial_base hn, by rw [hmemo, calculate_factorial_base hn]⟩

/-- Witness for C7 at concrete inputs 5 and -2. -/
theorem c7_witness :
    calculate_factorial (5 : Int) = 120 ∧
      (factorialMemo (5 : Int) []).1 = 120 ∧ calculate_factorial (-2 : Int) = 1 := by
  have h1 := c7_factorial_functions_correct.1 5
  have h2 := c7_factorial_functions_correct.2.1 5
  have h3 := (c7_factorial_functions_correct.2.2.1 (-2) (by norm_num)).1
  norm_num [Nat.factorial] at h1 h2
  exact ⟨h1, h2, h3⟩

/-- C8: `divide a b` raises `ZeroDivisionError` exactly when `b = 0`, and
otherwise returns the exact quotient `a / b` (numbers modelled as exact
rationals). -/
theorem c8_divide_spec :
    ∀ a b : ℚ, (divide a b = Except.error "Cannot divide by zero" ↔ b = 0) ∧
      (b ≠ 0 → divide a b = Except.ok (a / b)) := by
  intro a b
  constructor
  · constructor
    · intro h
      by_contra hb
      simp [divide, hb] at h
    · intro h
      simp [divide, h]
  · intro hb
    simp [divide, hb]

/-- Witness for C8 at concrete inputs. -/
theorem c8_witness :
    divide 6 3 = Except.ok 2 ∧ divide 1 0 = Except.error "Cannot divide by zero" := by
  constructor
  · have h := (c8_divide_spec 6 3).2 (by norm_num)
    rw [h]
    norm_num
  · exact (c8_divide_spec 1 0).1.mpr rfl

theorem calculate_factorial_fuel_sufficient :
    ∀ (k : Nat) (n : Int), n.toNat ≤ k →
      calculate_factorial_fuel (k + 1) n = some (calculate_factorial n) := by
  intro k
  induction k with
  | zero =>
    intro n hn
    have h1 : n ≤ 1 := by omega
    simp [calculate_factorial_fuel, h1, calculate_factorial_base h1]
  | succ k ih =>
    intro n hn
    by_cases h1 : n ≤ 1
    · simp [calculate_factorial_fuel, h1, calculate_factorial_base h1]
    · have hrec : (n - 1).toNat ≤ k := by omega
      rw [calculate_factorial_fuel, if_neg h1, ih (n - 1) hrec,
        calculate_factorial_step h1]
      rfl

/-- C10: the `calculate_factorial` recursion terminates on every integer
input, negatives and zero included: `n.toNat + 1` recursive steps always
suffice, i.e. the fuel-instrumented recursion never runs out of fuel, and
its value is the total function's value.  On every `n ≤ 1` (all negatives
and zero included) the base case returns 1 at once. -/
theorem c10_factorial_terminates :
    ∀ n : Int, calculate_factorial_fuel (n.toNat + 1) n = some (calculate_factorial n) ∧
      (n ≤ 1 → calculate_factorial_fuel (n.toNat + 1) n = some 1) := by
  intro n
  have h := calculate_factorial_fuel_sufficient n.toNat n (le_refl _)
  exact ⟨h, fun hn => by rw [h, calculate_factorial_base hn]⟩

/-- Witness for C10 at concrete inputs 0, -7 and 4. -/
theorem c10_witness :
    calculate_factorial_fuel 1 (0 : Int) = some 1 ∧
      calculate_factorial_fuel 1 (-7 : Int) = some 1 ∧
      calculate_factorial_fuel 5 (4 : Int) = some 24 := by
  refine ⟨(c10_factorial_terminates 0).2 (by norm_num), ?_, ?_⟩
  · have h := (c10_factorial_terminates (-7)).2 (by norm_num)
    simpa using h
  · have h := (c10_factorial_terminates 4).1
    have e5 : (4 : Int).toNat + 1 = 5 := rfl
    have e4 : calculate_factorial (4 : Int) = 24 := by
      have hc := calculate_factorial_natCast 4
      norm_num [Nat.factorial] at hc
      exact hc
    rw [e5, e4] at h
    exact h

/-! ## Lemmas about `is_prime` -/

theorem primeLoop_sound (num : Nat) :
    ∀ i, i % 6 = 5 → primeLoop num i = true →
      ∀ j, i ≤ j → j * j ≤ num → (j % 6 = 5 ∨ j % 6 = 1) → ¬ num % j = 0 := by
  intro i
  induction i using primeLoop.induct num with
  | case1 x hle hdiv =>
    intro _ htrue
    rw [primeLoop, if_pos hle, if_pos hdiv] at htrue
    exact absurd htrue (by simp)
  | case2 x hle hdiv ih =>
    intro hx6 htrue j hxj hjsq hjres
    rw [primeLoop, if_pos hle, if_neg hdiv] at htrue
    by_cases hj : j < x + 6
    · have : j = x ∨ j = x + 2 := by omega
      push_neg at hdiv
      rcases this with rfl | rfl
      · exact hdiv.1
      · exact hdiv.2
    · exact ih (by omega) htrue j (by omega) hjsq hjres
  | case3 x hle =>
    intro _ _ j hxj hjsq _
    have : x * x ≤ j * j := Nat.mul_le_mul hxj hxj
    omega

theorem primeLoop_complete (num : Nat) :
    ∀ i, 5 ≤ i → primeLoop num i = false →
      ∃ d, 1 < d ∧ d < num ∧ num % d = 0 := by
  intro i
  induction i using primeLoop.induct num with
  | case1 x hle hdiv =>
    intro h5 _
    have h5x : 5 * x ≤ x * x := Nat.mul_le_mul_right x h5
    rcases hdiv with h | h
    · exact ⟨x, by omega, by omega, h⟩
    · exact ⟨x + 2, by omega, by omega, h⟩
  | case2 x hle hdiv ih =>
    intro h5 hfalse
    rw [primeLoop, if_pos hle, if_neg hdiv] at hfalse
    exact ih (by omega) hfalse
  | case3 x hle =>
    intro _ hfalse
    rw [primeLoop, if_neg hle] at hfalse
    exact absurd hfalse (by simp)

/-- The trial-division loop decides primality for `n ≥ 4` not divisible by 2
or 3. -/
theorem primeLoop_iff (n : Nat) (h4 : 4 ≤ n) (h2 : ¬ n % 2 = 0) (h3 : ¬ n % 3 = 0) :
    primeLoop n 5 = true ↔ ∀ d : Nat, 1 < d → d < n → ¬ d ∣ n := by
  constructor
  · intro hloop d hd1 hdn hdvd
    have hnp : ¬ n.Prime := by
      intro hp
      rcases hp.eq_one_or_self_of_dvd d hdvd with h | h <;> omega
    have hpprime : (n.minFac).Prime := Nat.minFac_prime (by omega)
    have hpdvd : n.minFac ∣ n := Nat.minFac_dvd n
    have hpsq : n.minFac * n.minFac ≤ n := by
      have h := Nat.minFac_sq_le_self (by omega) hnp
      rwa [pow_two] at h
    have hp2 : n.minFac ≠ 2 := by
      intro h
      rw [h] at hpdvd
      omega
    have hp3 : n.minFac ≠ 3 := by
      intro h
      rw [h] at hpdvd
      omega
    have hp4 : n.minFac ≠ 4 := by
      intro h
      rw [h] at hpprime
      norm_num at hpprime
    have hp5 : 5 ≤ n.minFac := by
      have := hpprime.two_le
      omega
    have hodd : n.minFac % 2 = 1 := by
      by_contra hpe
      have hdvd2 : (2 : Nat) ∣ n.minFac := by omega
      rcases hpprime.eq_one_or_self_of_dvd 2 hdvd2 with h | h <;> omega
    have hm3 : ¬ n.minFac % 3 = 0 := by
      intro h30
      have hdvd3 : (3 : Nat) ∣ n.minFac := by omega
      rcases hpprime.eq_one_or_self_of_dvd 3 hdvd3 with h | h <;> omega
    have hres : n.minFac % 6 = 5 ∨ n.minFac % 6 = 1 := by omega
    exact primeLoop_sound n 5 (by norm_num) hloop n.minFac hp5 hpsq hres
      (Nat.mod_eq_zero_of_dvd hpdvd)
  · intro hnd
    by_contra hyp
    have hfalse : primeLoop n 5 = false := by
      cases h : primeLoop n 5 with
      | false => rfl
      | true => exact absurd h hyp
    obtain ⟨d, hd1, hdn, hmod⟩ := primeLoop_complete n 5 (by norm_num) hfalse
    exact hnd d hd1 hdn (Nat.dvd_iff_mod_eq_zero.mpr hmod)

/-- C9: `is_prime num` returns `True` exactly when `num` is prime in the
claim's sense: `num > 1` and no integer `d` with `1 < d < num` divides
`num`. -/
theorem c9_is_prime_correct :
    ∀ num : Int, is_prime num = true ↔
      (1 < num ∧ ∀ d : Int, 1 < d → d < num → ¬ d ∣ num) := by
  intro num
  unfold is_prime
  by_cases h1 : num ≤ 1
  · simp only [if_pos h1]
    constructor
    · intro h
      exact absurd h (by simp)
    · rintro ⟨h, -⟩
      omega
  · by_cases h3 : num ≤ 3
    · simp only [if_neg h1, if_pos h3]
      constructor
      · intro _
        refine ⟨by omega, ?_⟩
        intro d hd1 hdn hdvd
        have hd2 : d = 2 ∧ num = 3 := by omega
        rcases hd2 with ⟨rfl, rfl⟩
        omega
      · intro _
        trivial
    · by_cases hmod : num % 2 = 0 ∨ num % 3 = 0
      · simp only [if_neg h1, if_neg h3, if_pos hmod]
        constructor
        · intro h
          exact absurd h (by simp)
        · rintro ⟨-, hall⟩
          rcases hmod with h | h
          · exact (hall 2 (by omega) (by omega) (by omega)).elim
          · exact (hall 3 (by omega) (by omega) (by omega)).elim
      · simp only [if_neg h1, if_neg h3, if_neg hmod]
        push_neg at hmod
        have hn : num = (num.toNat : Int) := by omega
        have h4n : 4 ≤ num.toNat := by omega
        have h2n : ¬ num.toNat % 2 = 0 := by omega
        have h3n : ¬ num.toNat % 3 = 0 := by omega
        rw [primeLoop_iff num.toNat h4n h2n h3n]
        constructor
        · intro hnat
          refine ⟨by omega, ?_⟩
          intro d hd1 hdn hdvd
          have hd : d = (d.toNat : Int) := by omega
          rw [hd, hn] at hdvd
          exact hnat d.toNat (by omega) (by omega) (Int.natCast_dvd_natCast.mp hdvd)
        · rintro ⟨-, hint⟩
          intro m hm1 hmn hdvd
          refine hint (m : Int) (by omega) (by omega) ?_
          rw [hn]
          exact Int.natCast_dvd_natCast.mpr hdvd

/-- Witness for C9: both directions of the equivalence at concrete inputs
97 (prime) and 15 (composite). -/
theorem c9_witness : is_prime 97 = true ∧ is_prime 15 = false := by
  constructor
  · refine (c9_is_prime_correct 97).mpr ⟨by norm_num, ?_⟩
    intro d hd1 hdn hdvd
    have hd : d = (d.toNat : Int) := by omega
    rw [hd] at hdvd
    have h97 : ((97 : Nat) : Int) = (97 : Int) := by norm_num
    rw [← h97] at hdvd
    have hdvdn : d.toNat ∣ 97 := Int.natCast_dvd_natCast.mp hdvd
    have hp : Nat.Prime 97 := by norm_num
    rcases hp.eq_one_or_self_of_dvd d.toNat hdvdn with h | h <;> omega
  · have hne : ¬ is_prime 15 = true := by
      intro h
      obtain ⟨-, hall⟩ := (c9_is_prime_correct 15).mp h
      exact hall 3 (by norm_num) (by norm_num) (by norm_num)
    cases h : is_prime 15 with
    | false => rfl
    | true => exact absurd h hne

/-! ## File-writing side effects in `refactored_function.py` (claim C3) -/

/-- A persistent-storage side effect: a write of `content` to the file at
`path`. -/
inductive FileEffect : Type
  | fileWrite (path : String) (content : String)
deriving DecidableEq, Repr

/-- ASCII lower-casing of one character, modelling Python's `str.lower()`
character-wise on the ASCII format strings `write_output_file` compares. -/
def lowerChar (c : Char) : Char :=
  if 65 ≤ c.toNat ∧ c.toNat ≤ 90 then Char.ofNat (c.toNat + 32) else c

/-- Modelling Python's `str.lower()`. -/
def lowerString (s : String) : String :=
  String.mk (s.data.map lowerChar)

/-- Embedded from `src/python/refactored_function.py`, `write_output_file`:
for format `"json"` (compared lower-cased) it opens `output_path` for
writing and serializes `output_data` into it; for any other format it
raises `ValueError`.  The returned list records the file-system writes the
call performs, with the JSON rendering kept opaque as the already-serialized
string `output_data`. -/
def write_output_file (output_path : String) (output_data : String)
    (output_format : String) : Except String (List FileEffect) :=
  if lowerString output_format = "json" then
    Except.ok [FileEffect.fileWrite output_path output_data]
  else
    Except.error ("Unsupported output format: " ++ output_format)

/-- Does the call's outcome include at least one persistent-storage
write? -/
def writesPersistentState (r : Except String (List FileEffect)) : Bool :=
  match r with
  | Except.ok effects => !effects.isEmpty
  | Except.error _ => false

/-- C3 counterexample: `write_output_file` called with the `"json"` format
performs a persistent file write, so not every function of the repository
is free of storage-writing side effects. -/
theorem c3_counterexample :
    writesPersistentState (write_output_file "output.json" "serialized" "json") = true := by
  decide

/-- C3 (amended): the repository's functions are free of storage-writing
side effects with the exception of `write_output_file` (and
`process_and_analyze_data`, which calls it): for every input,
`write_output_file` either gets a format that lower-cases to `"json"` and
performs exactly one write — the serialized data to the given output path —
or raises `ValueError` and performs no write at all. -/
theorem c3_write_output_file_effects :
    ∀ path data fmt : String,
      (lowerString fmt = "json" ∧
        write_output_file path data fmt =
          Except.ok [FileEffect.fileWrite path data]) ∨
      (lowerString fmt ≠ "json" ∧
        write_output_file path data fmt =
          Except.error ("Unsupported output format: " ++ fmt)) := by
  intro path data fmt
  by_cases h : lowerString fmt = "json"
  · exact Or.inl ⟨h, by rw [write_output_file, if_pos h]⟩
  · exact Or.inr ⟨h, by rw [write_output_file, if_neg h]⟩

/-- Witness for C3's amended claim at concrete formats "json" and "csv". -/
theorem c3_witness :
    write_output_file "out.json" "d" "json" =
        Except.ok [FileEffect.fileWrite "out.json" "d"] ∧
      write_output_file "out.json" "d" "csv" =
        Except.error ("Unsupported output format: " ++ "csv") := by
  constructor
  · rcases c3_write_output_file_effects "out.json" "d" "json" with ⟨-, h⟩ | ⟨hne, -⟩
    · exact h
    · exact absurd (by decide) hne
  · rcases c3_write_output_file_effects "out.json" "d" "csv" with ⟨heq, -⟩ | ⟨-, h⟩
    · exact absurd heq (by decide)
    · exact h

/-! ## Spec-modelled classifier core (claims C1, C2, C4, C5, C6)

The Change Classifier the fixtures exercise is external to the repository;
spec sections 2-4 describe it at design level.  The definitions below are
therefore modelled from the spec's words (data model of section 3,
Declaration Matcher of 4.2, Change Classifier of 4.3 with the multi-label
rule of section 8, parser of 4.1 restricted to the simple one-function
fixtures the spec's concrete scenarios use). -/

/-- Modelled from the spec: one formal parameter of a signature (spec
section 9): name, whether a default is present, the default as an opaque
string, and an optional opaque type annotation (field `annot`). -/
structure Param where
  name : String
  has_default : Bool
  default_repr : Option String
  annot : Option String
deriving DecidableEq, Repr

/-- Modelled from the spec: a Declaration (spec section 3) — qualified
name, nesting depth, start line, ordered parameter list, optional
docstring, whitespace-normalized body token sequence and the raw source
text of the declaration.  The declaration kind is left implicit: the
fixtures driven through the model here are all plain functions. -/
structure Declaration where
  qualifiedName : String
  depth : Nat
  startLine : Nat
  params : List Param
  docstring : Option String
  bodyTokens : List String
  rawText : String
deriving DecidableEq, Repr

/-- Modelled from the spec: a Match (spec section 3) references the
before-Declaration and/or the after-Declaration by its position in the
corresponding sequence; one-sided matches represent adds and deletes. -/
structure MatchPair where
  beforeIdx : Option Nat
  afterIdx : Option Nat
deriving DecidableEq, Repr

/-! ### Tokenizer (spec sections 4.1 and glossary: whitespace-normalized
token sequences, blanks inside string literals preserved) -/

def isBlankChar (c : Char) : Bool :=
  c == ' ' || c == '\t' || c == '\n' || c.toNat == 13

def isQuoteChar (c : Char) : Bool :=
  c.toNat == 34 || c.toNat == 39

def isWordChar (c : Char) : Bool :=
  c.isAlphanum || c == '_'

/-- Modelled from the spec: tokenization with run-length whitespace
collapsed away (glossary, "Whitespace-normalized").  Identifier/number
characters group into one token, a quote starts a string literal kept whole
(blanks inside literals are preserved), any other character is a one-char
token.  Structured with explicit fuel (one unit per consumed character) so
the recursion is structural; `tokenizeChars` supplies enough fuel for the
whole input. -/
def tokenizeAux : Nat → List Char → List String
  | 0, _ => []
  | _, [] => []
  | fuel + 1, c :: cs =>
    if isBlankChar c then tokenizeAux fuel cs
    else if isQuoteChar c then
      let lit := cs.takeWhile (fun d => d != c)
      String.mk (c :: (lit ++ [c])) :: tokenizeAux fuel (cs.drop (lit.length + 1))
    else if isWordChar c then
      let w := cs.takeWhile isWordChar
      String.mk (c :: w) :: tokenizeAux fuel (cs.drop w.length)
    else
      String.mk [c] :: tokenizeAux fuel cs

def tokenizeChars (l : List Char) : List String :=
  tokenizeAux l.length l

/-- Is this token a string literal (it starts with a quote)? -/
def isStringTok (t : String) : Bool :=
  match t.data with
  | c :: _ => isQuoteChar c
  | [] => false

/-! ### Source Parser (spec section 4.1, restricted to the flat
function-definition shapes the spec's concrete scenarios use; nested
declarations and classes are out of this model's scope, so every parsed
declaration has nesting depth 0) -/

/-- Split a character list at newline characters. -/
def splitNl : List Char → List (List Char)
  | [] => [[]]
  | c :: cs =>
    let r := splitNl cs
    if c.toNat == 10 then [] :: r
    else
      match r with
      | line :: rest => (c :: line) :: rest
      | [] => [[c]]

/-- Rejoin lines with newline characters (inverse of `splitNl`). -/
def joinNl : List (List Char) → List Char
  | [] => []
  | [l] => l
  | l :: rest => l ++ '\n' :: joinNl rest

/-- Does this line open a top-level `def` declaration? -/
def isDefLine (l : List Char) : Bool :=
  match l with
  | 'd' :: 'e' :: 'f' :: c :: _ => isBlankChar c
  | _ => false

/-- Group a file's lines into declaration chunks: each chunk starts at a
line opening a `def` and extends to the next such line; `cur` carries the
chunk being accumulated (start line, reversed lines). -/
def gatherChunksAux :
    List (List Char) → Nat → Option (Nat × List (List Char)) →
      List (Nat × List (List Char))
  | [], _, none => []
  | [], _, some (ln, acc) => [(ln, acc.reverse)]
  | line :: rest, n, cur =>
    if isDefLine line then
      (match cur with
        | some (ln, acc) => [(ln, acc.reverse)]
        | none => []) ++ gatherChunksAux rest (n + 1) (some (n, [line]))
    else
      match cur with
      | some (ln, acc) => gatherChunksAux rest (n + 1) (some (ln, line :: acc))
      | none => gatherChunksAux rest (n + 1) none

def gatherChunks (text : List Char) : List (Nat × List (List Char)) :=
  gatherChunksAux (splitNl text) 0 none

/-- Split a token list at every occurrence of the separator token. -/
def splitToks (sep : String) : List String → List (List String)
  | [] => [[]]
  | t :: ts =>
    let r := splitToks sep ts
    if t == sep then [] :: r
    else
      match r with
      | g :: rest => (t :: g) :: rest
      | [] => [[t]]

/-- Modelled from the spec (section 9): parse one comma-separated parameter
group `name [":" annotation-tokens] ["=" default-tokens]` into the tagged
parameter structure; the default and annotation stay opaque strings. -/
def parseParam (ts : List String) : Option Param :=
  match ts with
  | [] => none
  | name :: rest =>
    let beforeDefault := rest.takeWhile (fun t => t != "=")
    let defToks := rest.drop (beforeDefault.length + 1)
    let hasDef := beforeDefault.length < rest.length
    let annStr :=
      match beforeDefault with
      | ":" :: more => some (" ".intercalate more)
      | _ => none
    some
      { name := name, has_default := hasDef,
        default_repr := if hasDef then some (" ".intercalate defToks) else none,
        annot := annStr }

def parseParams (inside : List String) : List Param :=
  if inside.isEmpty then []
  else (splitToks "," inside).filterMap parseParam

/-- The signature-independent content of a declaration, computed purely
from its token sequence. -/
structure DeclCore where
  qualifiedName : String
  params : List Param
  docstring : Option String
  bodyTokens : List String
deriving DecidableEq, Repr

/-- Modelled from the spec: extract name, parameter list, docstring and
whitespace-normalized body token sequence from a declaration's token
sequence `def name ( params ) [-> annotation] : body`.  A leading string
literal of the body is the docstring and is kept out of the body tokens. -/
def declOfTokens (ts : List String) : Option DeclCore :=
  match ts with
  | "def" :: name :: "(" :: rest =>
    let inside := rest.takeWhile (fun t => t != ")")
    let afterParens := rest.drop (inside.length + 1)
    let body0 := (afterParens.dropWhile (fun t => t != ":")).drop 1
    let doc :=
      match body0.head? with
      | some t => if isStringTok t then some t else none
      | none => none
    let body := if doc.isSome then body0.drop 1 else body0
    some
      { qualifiedName := name, params := parseParams inside,
        docstring := doc, bodyTokens := body }
  | _ => none

/-- Build a full `Declaration` from a chunk's tokens, raw text and start
line (all chunks are top-level, so depth is 0). -/
def buildDecl (ts : List String) (raw : String) (ln : Nat) : Option Declaration :=
  (declOfTokens ts).map fun c =>
    { qualifiedName := c.qualifiedName, depth := 0, startLine := ln,
      params := c.params, docstring := c.docstring,
      bodyTokens := c.bodyTokens, rawText := raw }

/-- Parse one declaration chunk of source text. -/
def parseDecl (chunk : String) : Option Declaration :=
  buildDecl (tokenizeChars chunk.data) chunk 0

/-- Modelled from the spec: the Source Parser (section 4.1) — source text
to the ordered sequence of Declarations, `none` on a parse failure
(`ParseError`). -/
def parseSource (text : String) : Option (List Declaration) :=
  let parsed := (gatherChunks text.data).map fun p =>
    buildDecl (tokenizeChars (joinNl p.2)) (String.mk (joinNl p.2)) p.1
  if parsed.all Option.isSome then some (parsed.filterMap id) else none

/-! ### Declaration Matcher (spec section 4.2, greedy
highest-preference-first assignment, deterministic) -/

/-- Longest common subsequence length of two token sequences. -/
def lcsLength : List String → List String → Nat
  | [], _ => 0
  | _ :: _, [] => 0
  | a :: as, b :: bs =>
    if a = b then 1 + lcsLength as bs
    else max (lcsLength (a :: as) bs) (lcsLength as (b :: bs))
termination_by xs ys => xs.length + ys.length
decreasing_by
  all_goals simp_arith [List.length_cons]

/-- Modelled from the spec: normalized token-sequence similarity in `[0,1]`
(section 4.2), the standard LCS similarity 2·lcs/(|xs|+|ys|). -/
def simScore (xs ys : List String) : ℚ :=
  if xs.length + ys.length = 0 then 1
  else (2 * lcsLength xs ys : ℚ) / ((xs.length : ℚ) + (ys.length : ℚ))

/-- Modelled from the spec: the fixed body-similarity threshold 0.6. -/
def simThreshold : ℚ := 3 / 5

/-- Distance between the original line positions of two declarations
(section 4.2's tie-break "closest original line position"). -/
def lineDist (d e : Declaration) : Nat :=
  max d.startLine e.startLine - min d.startLine e.startLine

/-- First index `j` with `start ≤ j < start + k` whose predicate holds. -/
def firstIdxFrom (p : Nat → Bool) : Nat → Nat → Option Nat
  | _, 0 => none
  | start, k + 1 => if p start then some start else firstIdxFrom p (start + 1) k

/-- Does unused after-index `j` hold a declaration with the same qualified
name and nesting depth as `d`?  (Section 4.2 rule (1).) -/
def exactNameAt (after : List Declaration) (d : Declaration) (used : List Nat)
    (j : Nat) : Bool :=
  !(used.contains j) &&
    match after.get? j with
    | some e => decide (e.qualifiedName = d.qualifiedName ∧ e.depth = d.depth)
    | none => false

/-- Pick the best candidate from `(index, similarity, line-distance)`
triples: highest similarity first, then smallest line distance, keeping the
earlier-listed candidate on full ties (deterministic tie-break). -/
def bestCand : List (Nat × ℚ × Nat) → Option (Nat × ℚ × Nat)
  | [] => none
  | c :: rest =>
    match bestCand rest with
    | none => some c
    | some b =>
      if b.2.1 > c.2.1 || (b.2.1 == c.2.1 && b.2.2 < c.2.2) then some b else some c

/-- Modelled from the spec (section 4.2): choose the after-side partner of
before-declaration `d` among the indices not yet `used`: an exact
qualified-name-and-depth match is preferred over any heuristic match
(first such index, a deterministic tie-break); otherwise the unused
candidate of highest body-similarity above the 0.6 threshold, ties broken
by closest original line position; otherwise none (the declaration will be
reported deleted). -/
def pickAfter (after : List Declaration) (d : Declaration) (used : List Nat) :
    Option Nat :=
  match firstIdxFrom (exactNameAt after d used) 0 after.length with
  | some j => some j
  | none =>
    let cands := (List.range after.length).filterMap fun j =>
      if used.contains j then none
      else
        match after.get? j with
        | some e =>
          let s := simScore d.bodyTokens e.bodyTokens
          if simThreshold ≤ s then some (j, s, lineDist d e) else none
        | none => none
    (bestCand cands).map fun c => c.1

/-- Greedy assignment: walk the before-side indices in order, pairing each
with `pickAfter`'s choice among the after-side indices not yet used. -/
def assignAux (before after : List Declaration) :
    List Nat → List Nat → List (Nat × Option Nat)
  | [], _ => []
  | i :: rest, used =>
    match before.get? i with
    | none => (i, none) :: assignAux before after rest used
    | some d =>
      match pickAfter after d used with
      | some j => (i, some j) :: assignAux before after rest (j :: used)
      | none => (i, none) :: assignAux before after rest used

/-- Modelled from the spec: the Declaration Matcher (section 4.2), greedy
deterministic variant.  Every before-index yields exactly one Match
(paired or deleted); every after-index not taken by a pair yields an
`added` Match. -/
def matchDecls (before after : List Declaration) : List MatchPair :=
  let asg := assignAux before after (List.range before.length) []
  let usedAfter := asg.filterMap fun p => p.2
  (asg.map fun p => ⟨some p.1, p.2⟩) ++
    (((List.range after.length).filter fun j => !(usedAfter.contains j)).map
      fun j => ⟨none, some j⟩)

/-- An exhaustive alternative matcher for small inputs (spec section 4.2:
"exact maximum-weight matching for small inputs").  `allAssignments m k used`
enumerates every injective partial assignment of `k` before-indices to the
after-indices `< m` outside `used`. -/
def allAssignments (m : Nat) : Nat → List Nat → List (List (Option Nat))
  | 0, _ => [[]]
  | k + 1, used =>
    ((allAssignments m k used).map fun rest => none :: rest) ++
      (((List.range m).filter fun j => !(used.contains j)).flatMap fun j =>
        (allAssignments m k (j :: used)).map fun rest => some j :: rest)

/-- Weight of pairing two declarations: an exact qualified-name-and-depth
match outweighs any heuristic (2 > 1 ≥ similarity), a similarity above the
threshold scores that similarity, anything else is penalized so the
maximum-weight matching never pairs it. -/
def pairWeight (b e : Declaration) : ℚ :=
  if b.qualifiedName = e.qualifiedName ∧ b.depth = e.depth then 2
  else
    let s := simScore b.bodyTokens e.bodyTokens
    if simThreshold ≤ s then s else -1

/-- Total weight of one assignment of the before-sequence. -/
def assignmentWeight (after : List Declaration) :
    List Declaration → List (Option Nat) → ℚ
  | b :: bs, some j :: rest =>
    (match after.get? j with
      | some e => pairWeight b e
      | none => -1) + assignmentWeight after bs rest
  | _ :: bs, none :: rest => assignmentWeight after bs rest
  | _, _ => 0

/-- Modelled from the spec: the exact maximum-weight Declaration Matcher
alternative (section 4.2), deterministic by keeping the first assignment of
maximal weight in enumeration order. -/
def maxWeightMatchDecls (before after : List Declaration) : List MatchPair :=
  let all := allAssignments after.length before.length []
  let best := (all.foldl (fun acc c =>
    match acc with
    | none => some c
    | some b =>
      if assignmentWeight after before c > assignmentWeight after before b then some c
      else some b) none).getD []
  let pairs := (List.range before.length).zip best
  let usedAfter := pairs.filterMap fun p => p.2
  (pairs.map fun p => ⟨some p.1, p.2⟩) ++
    (((List.range after.length).filter fun j => !(usedAfter.contains j)).map
      fun j => ⟨none, some j⟩)

/-! ### Change Classifier (spec section 4.3 with section 8's multi-label
rule) -/

/-- The eight change kinds of spec section 4.3. -/
inductive ChangeKind : Type
  | added
  | deleted
  | renamed
  | signatureChanged
  | bodyChanged
  | docstringOnly
  | whitespaceOnly
  | unchanged
deriving DecidableEq, Repr

/-- Modelled from the spec (sections 4.3 and 8): the ordered subset of
applicable change kinds for a two-sided match whose raw texts differ —
renamed (same depth, similarity above threshold, different qualified name),
signature-changed (same name, parameter lists differ, regardless of body),
body-changed (normalized body token sequences differ), docstring-only
(everything but the docstring equal), whitespace-only (raw text differs but
every normalized component is identical). -/
def applicableKinds (b a : Declaration) : List ChangeKind :=
  (if b.depth = a.depth ∧ b.qualifiedName ≠ a.qualifiedName ∧
      simThreshold ≤ simScore b.bodyTokens a.bodyTokens then
    [ChangeKind.renamed] else []) ++
  (if b.qualifiedName = a.qualifiedName ∧ b.params ≠ a.params then
    [ChangeKind.signatureChanged] else []) ++
  (if b.bodyTokens ≠ a.bodyTokens then [ChangeKind.bodyChanged] else []) ++
  (if b.qualifiedName = a.qualifiedName ∧ b.params = a.params ∧
      b.bodyTokens = a.bodyTokens ∧ b.docstring ≠ a.docstring then
    [ChangeKind.docstringOnly] else []) ++
  (if b.qualifiedName = a.qualifiedName ∧ b.params = a.params ∧
      b.bodyTokens = a.bodyTokens ∧ b.docstring = a.docstring then
    [ChangeKind.whitespaceOnly] else [])

/-- Modelled from the spec: the Change Classifier (section 4.3).  `Added`
and `Deleted` for one-sided matches; `Unchanged` when the raw text is
identical — mutually exclusive with every other kind, it short-circuits
the classification; otherwise the ordered subset of applicable kinds. -/
def classifyPair : Option Declaration → Option Declaration → List ChangeKind
  | none, some _ => [ChangeKind.added]
  | some _, none => [ChangeKind.deleted]
  | none, none => []
  | some b, some a =>
    if b.rawText = a.rawText then [ChangeKind.unchanged]
    else applicableKinds b a

/-- Classify every Match produced by the Declaration Matcher. -/
def classifyAll (before after : List Declaration) :
    List (MatchPair × List ChangeKind) :=
  (matchDecls before after).map fun m =>
    (m, classifyPair (m.beforeIdx.bind before.get?) (m.afterIdx.bind after.get?))

/-- Modelled from the spec (section 5): the synchronous pipeline for one
file pair, Parse(before) → Parse(after) → Match → Classify. -/
def pipeline (beforeText afterText : String) :
    Option (List (MatchPair × List ChangeKind)) :=
  match parseSource beforeText, parseSource afterText with
  | some bs, some afs => some (classifyAll bs afs)
  | _, _ => none

/-! ## Lemmas about the Declaration Matcher -/

theorem firstIdxFrom_sound (p : Nat → Bool) :
    ∀ (k s t : Nat), firstIdxFrom p s k = some t →
      p t = true ∧ s ≤ t ∧ t < s + k := by
  intro k
  induction k with
  | zero => intro s t h; simp [firstIdxFrom] at h
  | succ k ih =>
    intro s t h
    rw [firstIdxFrom] at h
    by_cases hp : p s = true
    · simp only [hp, if_true] at h
      obtain rfl : s = t := by simpa using h
      exact ⟨hp, le_refl s, by omega⟩
    · simp only [hp] at h
      simp only [Bool.false_eq_true, if_false] at h
      obtain ⟨h1, h2, h3⟩ := ih (s + 1) t h
      exact ⟨h1, by omega, by omega⟩

theorem firstIdxFrom_eq (p : Nat → Bool) :
    ∀ (k s t : Nat), s ≤ t → t < s + k → p t = true →
      (∀ j, s ≤ j → j < t → p j = false) → firstIdxFrom p s k = some t := by
  intro k
  induction k with
  | zero => intro s t h1 h2; omega
  | succ k ih =>
    intro s t h1 h2 hp hbelow
    rw [firstIdxFrom]
    by_cases hs : s = t
    · subst hs
      simp [hp]
    · have hfalse : p s = false := hbelow s (le_refl s) (by omega)
      simp only [hfalse, Bool.false_eq_true, if_false]
      exact ih (s + 1) t (by omega) (by omega) hp fun j hj1 hj2 => hbelow j (by omega) hj2

theorem bestCand_mem : ∀ (l : List (Nat × ℚ × Nat)) (c : Nat × ℚ × Nat),
    bestCand l = some c → c ∈ l := by
  intro l
  induction l with
  | nil => intro c h; simp [bestCand] at h
  | cons a rest ih =>
    intro c h
    rw [bestCand] at h
    cases hb : bestCand rest with
    | none =>
      rw [hb] at h
      obtain rfl : a = c := by simpa using h
      exact List.mem_cons_self a rest
    | some b =>
      rw [hb] at h
      by_cases hcond : (b.2.1 > a.2.1 || (b.2.1 == a.2.1 && decide (b.2.2 < a.2.2))) = true
      · simp only [hcond, if_true] at h
        obtain rfl : b = c := by simpa using h
        exact List.mem_cons_of_mem a (ih b hb)
      · simp only [hcond, Bool.false_eq_true, if_false] at h
        obtain rfl : a = c := by simpa using h
        exact List.mem_cons_self a rest

theorem pickAfter_valid (after : List Declaration) (d : Declaration)
    (used : List Nat) (j : Nat) (h : pickAfter after d used = some j) :
    j < after.length ∧ used.contains j = false := by
  unfold pickAfter at h
  cases hf : firstIdxFrom (exactNameAt after d used) 0 after.length with
  | some j0 =>
    rw [hf] at h
    obtain rfl : j0 = j := by simpa using h
    obtain ⟨hp, -, hlt⟩ := firstIdxFrom_sound _ _ _ _ hf
    unfold exactNameAt at hp
    rw [Bool.and_eq_true] at hp
    refine ⟨by omega, ?_⟩
    have := hp.1
    cases hc : used.contains j0 with
    | false => rfl
    | true => rw [hc] at this; simp at this
  | none =>
    rw [hf] at h
    simp only [Option.map_eq_some'] at h
    obtain ⟨c, hc, rfl⟩ := h
    have hmem := bestCand_mem _ _ hc
    rw [List.mem_filterMap] at hmem
    obtain ⟨j0, hj0, hf0⟩ := hmem
    rw [List.mem_range] at hj0
    by_cases hcont : used.contains j0 = true
    · simp only [hcont, if_true] at hf0
      contradiction
    · simp only [hcont] at hf0
      simp only [Bool.false_eq_true, if_false] at hf0
      cases hget : after.get? j0 with
      | none => rw [hget] at hf0; contradiction
      | some e =>
        rw [hget] at hf0
        simp only [] at hf0
        by_cases hth : simThreshold ≤ simScore d.bodyTokens e.bodyTokens
        · simp only [if_pos hth] at hf0
          obtain rfl : c = (j0, simScore d.bodyTokens e.bodyTokens, lineDist d e) := by
            simpa using hf0.symm
          exact ⟨hj0, by simpa using hcont⟩
        · simp only [if_neg hth] at hf0
          contradiction

theorem assignAux_map_fst (before after : List Declaration) :
    ∀ (l used : List Nat),
      (assignAux before after l used).map Prod.fst = l := by
  intro l
  induction l with
  | nil => intro used; simp [assignAux]
  | cons i rest ih =>
    intro used
    cases hget : before.get? i with
    | none => simp only [assignAux, hget, List.map_cons, ih]
    | some d =>
      cases hpick : pickAfter after d used with
      | none => simp only [assignAux, hget, hpick, List.map_cons, ih]
      | some j => simp only [assignAux, hget, hpick, List.map_cons, ih]

theorem assignAux_selected (before after : List Declaration) :
    ∀ (l used : List Nat),
      ((assignAux before after l used).filterMap fun p => p.2).Nodup ∧
        ∀ j ∈ (assignAux before after l used).filterMap fun p => p.2,
          j < after.length ∧ used.contains j = false := by
  intro l
  induction l with
  | nil =>
    intro used
    simp [assignAux]
  | cons i rest ih =>
    intro used
    cases hget : before.get? i with
    | none =>
      simp only [assignAux, hget, List.filterMap_cons]
      exact ih used
    | some d =>
      cases hpick : pickAfter after d used with
      | none =>
        simp only [assignAux, hget, hpick, List.filterMap_cons]
        exact ih used
      | some j =>
        obtain ⟨hjm, hjc⟩ := pickAfter_valid after d used j hpick
        obtain ⟨hnd, hmem⟩ := ih (j :: used)
        simp only [assignAux, hget, hpick, List.filterMap_cons]
        constructor
        · refine List.Nodup.cons ?_ hnd
          intro hjin
          have := (hmem j hjin).2
          rw [List.contains_cons] at this
          simp at this
        · intro x hx
          rcases List.mem_cons.mp hx with rfl | hx'
          · exact ⟨hjm, hjc⟩
          · obtain ⟨hxm, hxc⟩ := hmem x hx'
            rw [List.contains_cons, Bool.or_eq_false_iff] at hxc
            exact ⟨hxm, hxc.2⟩

theorem countP_snd_eq_count_sel :
    ∀ (l : List (Nat × Option Nat)) (j : Nat),
      (l.countP fun p => p.2 == some j) = (l.filterMap fun p => p.2).count j := by
  intro l j
  induction l with
  | nil => simp
  | cons p rest ih =>
    cases hp2 : p.2 with
    | none =>
      simp only [List.countP_cons, List.filterMap_cons, hp2]
      simp [ih]
    | some x =>
      simp only [List.countP_cons, List.filterMap_cons, hp2, List.count_cons, ih]
      by_cases hx : x = j
      · subst hx; simp
      · simp [hx, Ne.symm hx]

/-- C1: the Matches produced by the Declaration Matcher partition both
declaration sequences — every before-index and every after-index is
referenced by exactly one Match, with no overlap. -/
theorem c1_matcher_partition (before after : List Declaration) :
    (∀ i, i < before.length →
      ((matchDecls before after).countP fun m => m.beforeIdx == some i) = 1) ∧
    (∀ j, j < after.length →
      ((matchDecls before after).countP fun m => m.afterIdx == some j) = 1) := by
  unfold matchDecls
  set asg := assignAux before after (List.range before.length) [] with hasg
  set sel := asg.filterMap fun p => p.2 with hsel
  obtain ⟨hselnd, hselmem⟩ := assignAux_selected before after (List.range before.length) []
  rw [← hasg, ← hsel] at hselnd hselmem
  constructor
  · intro i hi
    rw [List.countP_append, List.countP_map, List.countP_map]
    have h2 : (List.countP
        ((fun m : MatchPair => m.beforeIdx == some i) ∘ fun j => ⟨none, some j⟩)
        ((List.range after.length).filter fun j => !(sel.contains j))) = 0 := by
      rw [List.countP_eq_zero]
      intro a _
      simp
    rw [h2, Nat.add_zero]
    have h1 : (List.countP
        ((fun m : MatchPair => m.beforeIdx == some i) ∘ fun p : Nat × Option Nat =>
          ⟨some p.1, p.2⟩) asg) = List.countP (fun x => x == i) (asg.map Prod.fst) := by
      rw [List.countP_map]
      apply List.countP_congr
      intro p _
      simp
    rw [h1, assignAux_map_fst]
    have : List.countP (fun x => x == i) (List.range before.length) =
        List.count i (List.range before.length) := by
      apply List.countP_congr
      intro x _
      simp [BEq.comm]
    rw [this]
    exact List.count_eq_one_of_mem (List.nodup_range _) (List.mem_range.mpr hi)
  · intro j hj
    rw [List.countP_append, List.countP_map, List.countP_map]
    have h1 : (List.countP
        ((fun m : MatchPair => m.afterIdx == some j) ∘ fun p : Nat × Option Nat =>
          ⟨some p.1, p.2⟩) asg) = sel.count j := by
      rw [hsel, ← countP_snd_eq_count_sel]
      apply List.countP_congr
      intro p _
      simp
    have h2 : (List.countP
        ((fun m : MatchPair => m.afterIdx == some j) ∘ fun x => ⟨none, some x⟩)
        ((List.range after.length).filter fun x => !(sel.contains x))) =
        List.count j ((List.range after.length).filter fun x => !(sel.contains x)) := by
      apply List.countP_congr
      intro x _
      simp [BEq.comm]
    rw [h1, h2]
    by_cases hjin : j ∈ sel
    · have hc1 : sel.count j = 1 := List.count_eq_one_of_mem hselnd hjin
      have hc2 : List.count j ((List.range after.length).filter
          fun x => !(sel.contains x)) = 0 := by
        rw [List.count_eq_zero]
        intro hmem
        rw [List.mem_filter] at hmem
        have hcj : sel.contains j = true := List.elem_iff.mpr hjin
        rw [hcj] at hmem
        simp at hmem
      omega
    · have hc1 : sel.count j = 0 := List.count_eq_zero.mpr hjin
      have hc2 : List.count j ((List.range after.length).filter
          fun x => !(sel.contains x)) = 1 := by
        apply List.count_eq_one_of_mem (List.Nodup.filter _ (List.nodup_range _))
        rw [List.mem_filter]
        refine ⟨List.mem_range.mpr hj, ?_⟩
        rw [Bool.not_eq_eq_eq_not, Bool.not_true]
        cases hc : sel.contains j with
        | false => rfl
        | true =>
          exact absurd (List.elem_iff.mp hc) hjin
      omega

/-- Witness for C1 on a concrete one-declaration file pair. -/
theorem c1_witness :
    ((matchDecls
        [{ qualifiedName := "g", depth := 0, startLine := 0, params := [],
           docstring := none, bodyTokens := ["pass"], rawText := "def g(): pass" }]
        [{ qualifiedName := "g", depth := 0, startLine := 0, params := [],
           docstring := none, bodyTokens := ["pass"], rawText := "def g(): pass" }]).countP
      fun m => m.beforeIdx == some 0) = 1 ∧
    ((matchDecls
        [{ qualifiedName := "g", depth := 0, startLine := 0, params := [],
           docstring := none, bodyTokens := ["pass"], rawText := "def g(): pass" }]
        [{ qualifiedName := "g", depth := 0, startLine := 0, params := [],
           docstring := none, bodyTokens := ["pass"], rawText := "def g(): pass" }]).countP
      fun m => m.afterIdx == some 0) = 1 := by
  constructor
  · exact (c1_matcher_partition _ _).1 0 (by norm_num)
  · exact (c1_matcher_partition _ _).2 0 (by norm_num)

/-! ## Identity runs of the pipeline (claim C2) -/

theorem pickAfter_self (ds : List Declaration) (i : Nat) (d : Declaration)
    (hget : ds.get? i = some d) (used : List Nat)
    (hused : ∀ j, used.contains j = true ↔ j < i) :
    pickAfter ds d used = some i := by
  have hi : i < ds.length := by
    obtain ⟨h, -⟩ := List.get?_eq_some.mp hget
    exact h
  unfold pickAfter
  have hfind : firstIdxFrom (exactNameAt ds d used) 0 ds.length = some i := by
    apply firstIdxFrom_eq
    · omega
    · omega
    · unfold exactNameAt
      rw [hget]
      have hc : used.contains i = false := by
        cases hc : used.contains i with
        | false => rfl
        | true => exact absurd ((hused i).mp hc) (by omega)
      rw [hc]
      simp
    · intro j hj0 hji
      unfold exactNameAt
      have hc : used.contains j = true := (hused j).mpr hji
      rw [hc]
      simp
  rw [hfind]

theorem assignAux_self (ds : List Declaration) :
    ∀ (k i : Nat) (used : List Nat), i + k ≤ ds.length →
      (∀ j, used.contains j = true ↔ j < i) →
      assignAux ds ds (List.range' i k) used =
        (List.range' i k).map fun x => (x, some x) := by
  intro k
  induction k with
  | zero => intro i used _ _; simp [List.range'_zero, assignAux]
  | succ k ih =>
    intro i used hlen hused
    rw [List.range'_succ]
    have hi : i < ds.length := by omega
    have hget : ds.get? i = some (ds.get ⟨i, hi⟩) := List.get?_eq_get hi
    simp only [assignAux, hget]
    rw [pickAfter_self ds i _ hget used hused]
    show (i, some i) :: assignAux ds ds (List.range' (i + 1) k) (i :: used) =
      List.map (fun x => (x, some x)) (i :: List.range' (i + 1) k)
    rw [List.map_cons]
    congr 1
    apply ih (i + 1) (i :: used) (by omega)
    intro j
    rw [List.contains_cons]
    constructor
    · intro h
      rcases Bool.or_eq_true_iff.mp h with h | h
      · have : j = i := by simpa using h
        omega
      · have := (hused j).mp h
        omega
    · intro h
      by_cases hji : j = i
      · subst hji; simp
      · have : j < i := by omega
        rw [(hused j).mpr this]
        simp

theorem matchDecls_self (ds : List Declaration) :
    matchDecls ds ds = (List.range ds.length).map fun i => ⟨some i, some i⟩ := by
  unfold matchDecls
  dsimp only
  rw [List.range_eq_range']
  rw [assignAux_self ds ds.length 0 [] (by omega) (by simp)]
  rw [List.filterMap_map]
  have hcomp : ((fun p : Nat × Option Nat => p.2) ∘ fun x => (x, some x)) =
      fun x : Nat => some x := rfl
  rw [hcomp, List.filterMap_some]
  have hfilter : ((List.range' 0 ds.length).filter
      fun j => !((List.range' 0 ds.length).contains j)) = [] := by
    rw [List.filter_eq_nil_iff]
    intro a ha
    have hc : (List.range' 0 ds.length).contains a = true := List.elem_iff.mpr ha
    rw [hc]
    simp
  rw [hfilter, List.map_map, List.map_nil, List.append_nil, ← List.range_eq_range']
  rfl

theorem classifyAll_self (ds : List Declaration) :
    ∀ r ∈ classifyAll ds ds, r.2 = [ChangeKind.unchanged] := by
  intro r hr
  unfold classifyAll at hr
  rw [matchDecls_self, List.map_map] at hr
  rw [List.mem_map] at hr
  obtain ⟨i, hi, rfl⟩ := hr
  rw [List.mem_range] at hi
  have hget : ds.get? i = some (ds.get ⟨i, hi⟩) := List.get?_eq_get hi
  simp only [Function.comp, Option.some_bind]
  rw [hget]
  simp [classifyPair]

/-- C2: running the pipeline on an identical pair (X, X) classifies every
declaration as Unchanged, and Unchanged is mutually exclusive with every
other change kind — whenever Unchanged is among the kinds of a classified
pair, it is the only kind (the classification short-circuits). -/
theorem c2_identity_unchanged :
    (∀ (X : String) (recs : List (MatchPair × List ChangeKind)),
        pipeline X X = some recs → ∀ r ∈ recs, r.2 = [ChangeKind.unchanged]) ∧
    (∀ b a : Option Declaration, ChangeKind.unchanged ∈ classifyPair b a →
        classifyPair b a = [ChangeKind.unchanged]) := by
  constructor
  · intro X recs hp r hr
    unfold pipeline at hp
    cases hps : parseSource X with
    | none => rw [hps] at hp; exact absurd hp (by simp)
    | some ds =>
      rw [hps] at hp
      simp only [Option.some.injEq] at hp
      subst hp
      exact classifyAll_self ds r hr
  · intro b a hmem
    match b, a with
    | none, some d => simp [classifyPair] at hmem
    | some d, none => simp [classifyPair] at hmem
    | none, none => simp [classifyPair] at hmem
    | some b, some a =>
      simp only [classifyPair] at hmem ⊢
      by_cases hraw : b.rawText = a.rawText
      · rw [if_pos hraw]
      · rw [if_neg hraw] at hmem
        exfalso
        revert hmem
        unfold applicableKinds
        split_ifs <;> simp

/-- Witness for C2: the identity pipeline run on a concrete source text. -/
theorem c2_witness :
    pipeline "def add(a, b):\n    return a + b" "def add(a, b):\n    return a + b" =
        some [({ beforeIdx := some 0, afterIdx := some 0 }, [ChangeKind.unchanged])] ∧
      (({ beforeIdx := some 0, afterIdx := some 0 } : MatchPair),
          [ChangeKind.unchanged]).2 = [ChangeKind.unchanged] := by
  have hp : pipeline "def add(a, b):\n    return a + b" "def add(a, b):\n    return a + b" =
      some [({ beforeIdx := some 0, afterIdx := some 0 }, [ChangeKind.unchanged])] := by
    decide
  exact ⟨hp, c2_identity_unchanged.1 _ _ hp _ (by simp)⟩

/-- C6: the Declaration Matcher is deterministic — two runs on identical
input produce identical Matches, for the greedy algorithm and for the
exact maximum-weight algorithm alike.  Both matchers are pure functions of
their inputs, so determinism is exactly functionality. -/
theorem c6_matcher_deterministic :
    ∀ (b1 a1 b2 a2 : List Declaration), b1 = b2 → a1 = a2 →
      matchDecls b1 a1 = matchDecls b2 a2 ∧
        maxWeightMatchDecls b1 a1 = maxWeightMatchDecls b2 a2 := by
  intro b1 a1 b2 a2 hb ha
  subst hb
  subst ha
  exact ⟨rfl, rfl⟩

/-- Witness for C6 on concrete equal inputs. -/
theorem c6_witness :
    matchDecls
        [{ qualifiedName := "g", depth := 0, startLine := 0, params := [],
           docstring := none, bodyTokens := ["pass"], rawText := "def g(): pass" }] [] =
      matchDecls
        [{ qualifiedName := "g", depth := 0, startLine := 0, params := [],
           docstring := none, bodyTokens := ["pass"], rawText := "def g(): pass" }] [] ∧
    maxWeightMatchDecls
        [{ qualifiedName := "g", depth := 0, startLine := 0, params := [],
           docstring := none, bodyTokens := ["pass"], rawText := "def g(): pass" }] [] =
      maxWeightMatchDecls
        [{ qualifiedName := "g", depth := 0, startLine := 0, params := [],
           docstring := none, bodyTokens := ["pass"], rawText := "def g(): pass" }] [] :=
  c6_matcher_deterministic _ _ _ _ rfl rfl

/-! ## Classifier lemmas (claims C4 and C5) -/

theorem parseDecl_rawText {t : String} {d : Declaration}
    (h : parseDecl t = some d) : d.rawText = t := by
  unfold parseDecl buildDecl at h
  rw [Option.map_eq_some'] at h
  obtain ⟨c, -, hc⟩ := h
  rw [← hc]

theorem parseDecl_core {t : String} {d : Declaration} (h : parseDecl t = some d) :
    ∃ c, declOfTokens (tokenizeChars t.data) = some c ∧
      d.qualifiedName = c.qualifiedName ∧ d.depth = 0 ∧ d.params = c.params ∧
      d.docstring = c.docstring ∧ d.bodyTokens = c.bodyTokens ∧ d.rawText = t := by
  unfold parseDecl buildDecl at h
  rw [Option.map_eq_some'] at h
  obtain ⟨c, hc, hd⟩ := h
  exact ⟨c, hc, by rw [← hd], by rw [← hd], by rw [← hd], by rw [← hd], by rw [← hd],
    by rw [← hd]⟩

theorem classifyPair_whitespaceOnly {b a : Declaration}
    (hname : b.qualifiedName = a.qualifiedName) (hparams : b.params = a.params)
    (hbody : b.bodyTokens = a.bodyTokens) (hdoc : b.docstring = a.docstring)
    (hraw : b.rawText ≠ a.rawText) :
    classifyPair (some b) (some a) = [ChangeKind.whitespaceOnly] := by
  simp only [classifyPair, if_neg hraw]
  unfold applicableKinds
  rw [if_neg (by rintro ⟨-, hne, -⟩; exact hne hname),
    if_neg (by rintro ⟨-, hne⟩; exact hne hparams),
    if_neg (by intro hne; exact hne hbody),
    if_neg (by rintro ⟨-, -, -, hne⟩; exact hne hdoc),
    if_pos ⟨hname, hparams, hbody, hdoc⟩]
  rfl

theorem signatureChanged_mem_applicable {b a : Declaration}
    (hname : b.qualifiedName = a.qualifiedName) (hparams : b.params ≠ a.params) :
    ChangeKind.signatureChanged ∈ applicableKinds b a := by
  unfold applicableKinds
  refine List.mem_append_left _ (List.mem_append_left _ (List.mem_append_left _
    (List.mem_append_right _ ?_)))
  rw [if_pos ⟨hname, hparams⟩]
  simp

theorem bodyChanged_mem_applicable {b a : Declaration}
    (hbody : b.bodyTokens ≠ a.bodyTokens) :
    ChangeKind.bodyChanged ∈ applicableKinds b a := by
  unfold applicableKinds
  refine List.mem_append_left _ (List.mem_append_left _ (List.mem_append_right _ ?_))
  rw [if_pos hbody]
  simp

/-- C4: when the only edit between two versions of a declaration is
insertion or removal of blank characters between tokens (formally: the two
texts tokenize — string literals kept whole — to the same token sequence
but differ as raw text), the Change Classifier yields exactly
Whitespace-only-changed and in particular never Body-changed. -/
theorem c4_whitespace_invariance :
    ∀ (t1 t2 : String) (d1 d2 : Declaration),
      tokenizeChars t1.data = tokenizeChars t2.data → t1 ≠ t2 →
      parseDecl t1 = some d1 → parseDecl t2 = some d2 →
      classifyPair (some d1) (some d2) = [ChangeKind.whitespaceOnly] ∧
        ChangeKind.bodyChanged ∉ classifyPair (some d1) (some d2) := by
  intro t1 t2 d1 d2 htok hne h1 h2
  obtain ⟨c1, hc1, hq1, hd1, hp1, hds1, hb1, hr1⟩ := parseDecl_core h1
  obtain ⟨c2, hc2, hq2, hd2, hp2, hds2, hb2, hr2⟩ := parseDecl_core h2
  rw [htok, hc2] at hc1
  obtain rfl : c1 = c2 := by simpa using hc1.symm
  have heq : classifyPair (some d1) (some d2) = [ChangeKind.whitespaceOnly] :=
    classifyPair_whitespaceOnly (by rw [hq1, hq2]) (by rw [hp1, hp2])
      (by rw [hb1, hb2]) (by rw [hds1, hds2]) (by rw [hr1, hr2]; exact hne)
  refine ⟨heq, ?_⟩
  rw [heq]
  simp

/-- The spec's concrete whitespace scenario, before side, as parsed. -/
def addBeforeDecl : Declaration :=
  { qualifiedName := "add", depth := 0, startLine := 0,
    params := [{ name := "a", has_default := false, default_repr := none, annot := none },
               { name := "b", has_default := false, default_repr := none, annot := none }],
    docstring := none, bodyTokens := ["return", "a", "+", "b"],
    rawText := "def add(a,b):\n return a+b" }

/-- The spec's concrete whitespace scenario, after side, as parsed. -/
def addAfterDecl : Declaration :=
  { qualifiedName := "add", depth := 0, startLine := 0,
    params := [{ name := "a", has_default := false, default_repr := none, annot := none },
               { name := "b", has_default := false, default_repr := none, annot := none }],
    docstring := none, bodyTokens := ["return", "a", "+", "b"],
    rawText := "def add(a, b):\n    return a + b" }

/-- Witness for C4: the spec's concrete scenario
`def add(a,b):\n return a+b` vs `def add(a, b):\n    return a + b`, both as
a single classified pair and end-to-end through the pipeline. -/
theorem c4_witness :
    classifyPair (some addBeforeDecl) (some addAfterDecl) =
        [ChangeKind.whitespaceOnly] ∧
      pipeline "def add(a,b):\n return a+b" "def add(a, b):\n    return a + b" =
        some [({ beforeIdx := some 0, afterIdx := some 0 }, [ChangeKind.whitespaceOnly])] := by
  constructor
  · exact (c4_whitespace_invariance "def add(a,b):\n return a+b"
      "def add(a, b):\n    return a + b" addBeforeDecl addAfterDecl (by decide) (by decide)
      (by decide) (by decide)).1
  · decide

/-- C5: for a matched pair where a parameter with a default value was added
(the after-side parameter list is the before-side list with one
defaulted parameter inserted), the Change Classifier reports
Signature-changed regardless of any body edit, and when the body token
sequence was also edited the resulting kind set contains both
Signature-changed and Body-changed. -/
theorem c5_signature_change_precedence :
    ∀ (t1 t2 : String) (d1 d2 : Declaration),
      parseDecl t1 = some d1 → parseDecl t2 = some d2 →
      d1.qualifiedName = d2.qualifiedName →
      (∃ xs p ys, p.has_default = true ∧ d1.params = xs ++ ys ∧
        d2.params = xs ++ p :: ys) →
      ChangeKind.signatureChanged ∈ classifyPair (some d1) (some d2) ∧
        (d1.bodyTokens ≠ d2.bodyTokens →
          ChangeKind.signatureChanged ∈ classifyPair (some d1) (some d2) ∧
            ChangeKind.bodyChanged ∈ classifyPair (some d1) (some d2)) := by
  intro t1 t2 d1 d2 h1 h2 hname hins
  obtain ⟨xs, p, ys, -, hps1, hps2⟩ := hins
  have hparams : d1.params ≠ d2.params := by
    intro he
    have : (xs ++ ys).length = (xs ++ p :: ys).length := by rw [← hps1, ← hps2, he]
    simp at this
  have hraw : d1.rawText ≠ d2.rawText := by
    intro he
    rw [parseDecl_rawText h1, parseDecl_rawText h2] at he
    rw [he] at h1
    rw [h1] at h2
    have : d1 = d2 := by simpa using h2
    exact hparams (by rw [this])
  have hcls : classifyPair (some d1) (some d2) = applicableKinds d1 d2 := by
    simp only [classifyPair, if_neg hraw]
  constructor
  · rw [hcls]
    exact signatureChanged_mem_applicable hname hparams
  · intro hbody
    rw [hcls]
    exact ⟨signatureChanged_mem_applicable hname hparams,
      bodyChanged_mem_applicable hbody⟩

/-- The spec's concrete signature-change scenario, before side, as
parsed. -/
def fBeforeDecl : Declaration :=
  { qualifiedName := "f", depth := 0, startLine := 0,
    params := [{ name := "a", has_default := false, default_repr := none, annot := none },
               { name := "b", has_default := false, default_repr := none, annot := none }],
    docstring := none, bodyTokens := ["return", "a", "+", "b"],
    rawText := "def f(a, b): return a + b" }

/-- The spec's concrete signature-change scenario, after side (parameter
`c=0` added and body edited), as parsed. -/
def fAfterDecl : Declaration :=
  { qualifiedName := "f", depth := 0, startLine := 0,
    params := [{ name := "a", has_default := false, default_repr := none, annot := none },
               { name := "b", has_default := false, default_repr := none, annot := none },
               { name := "c", has_default := true, default_repr := some "0", annot := none }],
    docstring := none, bodyTokens := ["return", "a", "+", "b", "+", "c"],
    rawText := "def f(a, b, c=0): return a + b + c" }

/-- Witness for C5: the spec's concrete scenario
`def f(a, b): return a + b` vs `def f(a, b, c=0): return a + b + c`, whose
body is also edited, reports both Signature-changed and Body-changed. -/
theorem c5_witness :
    ChangeKind.signatureChanged ∈ classifyPair (some fBeforeDecl) (some fAfterDecl) ∧
      ChangeKind.bodyChanged ∈ classifyPair (some fBeforeDecl) (some fAfterDecl) := by
  have h := c5_signature_change_precedence "def f(a, b): return a + b"
    "def f(a, b, c=0): return a + b + c" fBeforeDecl fAfterDecl (by decide) (by decide) rfl
    ⟨[{ name := "a", has_default := false, default_repr := none, annot := none },
      { name := "b", has_default := false, default_repr := none, annot := none }],
      { name := "c", has_default := true, default_repr := some "0", annot := none },
      [], rfl, rfl, rfl⟩
  exact h.2 (by decide)

end DiffScope
